import Mathlib

/-!
Shallow embedding of `disk/usage.py` (class `DiskUsage` and the module-level
report helpers) together with proofs about its behaviour.

Modelling conventions:
* Python `os.stat` outcomes are `Option StatResult` (`none` models the
  `OSError` branch of `_get_file_data`).
* The ad-hoc `DottedDict` file record becomes the structure `FileData`; the
  fields `name` and `modified` are `Option`s because the `OSError` branch
  leaves them unset.
* Sizes are natural numbers (`st_size` is a non-negative integer; the Python
  code stores `float(st_size)`, which is an exact embedding for file sizes).
* Python `sorted(..., key=..., reverse=True)` is a stable descending sort;
  it is embedded as `List.insertionSort` with the reflexive total preorder
  comparing sizes, which is likewise stable.
* The `_dirs_holder` dict (insertion ordered) becomes an association list.
* `os.walk` with top-down in-place pruning becomes the mutual recursion
  `walk_filesystem` / `walkSubs` over an inductive directory tree `FsDir`;
  the external collaborator `os.path.ismount` becomes the node flag
  `isMount`, and the CPython identity test `root is '/'`, which for the
  interned one-character string used here coincides with string equality,
  becomes `root = "/"`.
-/

/-- Result of a successful `os.stat` call: the two fields the program reads. -/
structure StatResult where
  st_size : Nat
  st_mtime : Int
deriving DecidableEq, Repr

/-- The dotted-dict record built by `DiskUsage._get_file_data`: `name` and
`modified` are only set on the success branch, `size` is always set. -/
structure FileData where
  name : Option String
  modified : Option Int
  size : Nat
deriving DecidableEq, Repr

/-- Embedding of `DiskUsage._get_file_data` (lines 49-63): on a successful
stat it fills all three fields, on `OSError` it only sets `size = 0`. -/
def get_file_data (filename : String) (stat : Option StatResult) : FileData :=
  match stat with
  | some st => { name := some filename, modified := some st.st_mtime, size := st.st_size }
  | none => { name := none, modified := none, size := 0 }

/-- Comparison used by `_sort_files_list`: descending by `size` (the sort key
`lambda item: item.size` with `reverse=True`). `sizeGe a b` says `a` may come
before `b`. -/
def sizeGe (a b : FileData) : Prop := b.size ≤ a.size

instance : DecidableRel sizeGe := fun a b => inferInstanceAs (Decidable (b.size ≤ a.size))

instance : IsTotal FileData sizeGe := ⟨fun a b => Nat.le_total b.size a.size⟩

instance : IsTrans FileData sizeGe := ⟨fun _ _ _ hab hbc => Nat.le_trans hbc hab⟩

/-- Embedding of `DiskUsage._sort_files_list` (lines 109-113): stable sort of
the file list, descending by size. -/
def sort_files_list (files : List FileData) : List FileData :=
  files.insertionSort sizeGe

/-- Embedding of `DiskUsage._process_files` (lines 77-87): append the new
record, re-sort, and pop the last (smallest) element once the list would
exceed 20 entries. -/
def process_files (files : List FileData) (file_data : FileData) : List FileData :=
  let files := sort_files_list (files ++ [file_data])
  if 21 ≤ files.length then files.dropLast else files

/-- Embedding of `DiskUsage._add_up_dir` (lines 29-36) acting on the
insertion-ordered association list `_dirs_holder`: add `file_data.size` to the
entry for `root`, creating it if absent. -/
def add_up_dir (holder : List (String × Nat)) (root : String) (file_data : FileData) :
    List (String × Nat) :=
  match holder with
  | [] => [(root, file_data.size)]
  | (k, v) :: rest =>
      if k = root then (k, v + file_data.size) :: rest
      else (k, v) :: add_up_dir rest root file_data

/-- Accumulated total recorded in `_dirs_holder` for a given directory path
(0 when the directory has no entry). -/
def lookupTotal (holder : List (String × Nat)) (p : String) : Nat :=
  match holder with
  | [] => 0
  | (k, v) :: rest => if k = p then v else lookupTotal rest p

/-- Sum of all accumulated directory totals in `_dirs_holder`. -/
def sumTotals (holder : List (String × Nat)) : Nat :=
  (holder.map Prod.snd).sum

/-- Key list (directory paths) of `_dirs_holder`, in insertion order. -/
def holderKeys (holder : List (String × Nat)) : List String :=
  holder.map Prod.fst

/-- Fields of the `os.statvfs` result that `_get_partition_usage` reads. -/
structure StatVfs where
  f_frsize : Nat
  f_blocks : Nat
  f_bfree : Nat
  f_bavail : Nat
  f_files : Nat
  f_favail : Nat
deriving DecidableEq, Repr

/-- The `partition` dotted dict assembled by `_get_partition_usage`. -/
structure Partition where
  free : Nat
  total : Nat
  used : Nat
  inodes_free : Nat
  inodes_total : Nat
  inodes_used : Nat
deriving DecidableEq, Repr

/-- Embedding of `DiskUsage._get_partition_usage` (lines 65-75). Note that
`used` is computed from `f_bfree` (the total free-block count) while `free`
is computed from `f_bavail` (the count available to unprivileged callers). -/
def get_partition_usage (st : StatVfs) : Partition :=
  { free := st.f_bavail * st.f_frsize
    total := st.f_blocks * st.f_frsize
    used := (st.f_blocks - st.f_bfree) * st.f_frsize
    inodes_free := st.f_favail
    inodes_total := st.f_files
    inodes_used := st.f_files - st.f_favail }

/-- Rounding to the nearest integer with ties to even, the behaviour of the
Python builtin `round` (floats are embedded as exact rationals). -/
def roundHalfEven (x : ℚ) : ℤ :=
  let n := x.floor
  let f := x - (n : ℚ)
  if f < 1 / 2 then n
  else if 1 / 2 < f then n + 1
  else if n % 2 = 0 then n else n + 1

/-- Python `round(x, 2)`: round to two decimal places, ties to even. -/
def pyRound2 (x : ℚ) : ℚ :=
  (roundHalfEven (x * 100) : ℚ) / 100

/-- Embedding of `calculate_percent` (lines 162-166). Division is unguarded
in the source; a zero `total` raises `ZeroDivisionError`, embedded as
`none`. -/
def calculate_percent (free total : Nat) : Option ℚ :=
  if total = 0 then none
  else some (pyRound2 ((free : ℚ) / (total : ℚ) * 100))

/-- Numeric skeleton of `format_partition_output` (lines 199-225): the two
`calculate_percent` calls it performs, with failure propagated. The textual
assembly around them (via the external unit converter) carries no further
computation on these values and is omitted. -/
def format_partition_output (partition : Partition) : Option (ℚ × ℚ) :=
  match calculate_percent partition.free partition.total,
        calculate_percent partition.inodes_free partition.inodes_total with
  | some spacePct, some inodePct => some (spacePct, inodePct)
  | _, _ => none

/-- One directory entry of the filesystem model: the entry name and the
outcome that `os.stat` would report for it (`none` models a broken symlink
or any other `OSError`). -/
structure FileEntry where
  name : String
  stat : Option StatResult
deriving DecidableEq, Repr

/-- Directory tree over which `os.walk` runs: component name, the verdict of
the external collaborator `os.path.ismount` on this directory, the plain
files directly inside it, and its subdirectories. -/
inductive FsDir where
  | mk (name : String) (isMount : Bool) (files : List FileEntry) (subdirs : List FsDir)

/-- Component name of a directory node. -/
def FsDir.name : FsDir → String
  | .mk n _ _ _ => n

/-- Verdict of `os.path.ismount` for this directory. -/
def FsDir.isMount : FsDir → Bool
  | .mk _ m _ _ => m

/-- Plain files directly inside this directory. -/
def FsDir.files : FsDir → List FileEntry
  | .mk _ _ fs _ => fs

/-- Immediate subdirectories of this directory. -/
def FsDir.subdirs : FsDir → List FsDir
  | .mk _ _ _ subs => subs

/-- Embedding of `os.path.join` for the path shapes the walk produces. -/
def joinPath (root name : String) : String :=
  if root = "" then name
  else if root.endsWith "/" then root ++ name
  else root ++ "/" ++ name

/-- The fixed exclusion list `exclude_root_dirs` from `DiskUsage.__init__`
(line 21). -/
def exclude_root_dirs : List String := ["dev", "proc", "selinux"]

/-- Embedding of `DiskUsage._filter_dirs` (lines 38-47): drop mount points,
then, when the current directory is the root path, drop the excluded
root-level names. -/
def filter_dirs (root : String) (dirs : List FsDir) : List FsDir :=
  let dirs := dirs.filter fun d => !d.isMount
  if root = "/" then dirs.filter (fun d => !(exclude_root_dirs.contains d.name)) else dirs

/-- Mutable traversal state of the `DiskUsage` object: `file_count`,
`files` and `_dirs_holder`, as initialised in `__init__`. -/
structure ScanState where
  file_count : Nat
  files : List FileData
  dirs_holder : List (String × Nat)
deriving DecidableEq, Repr

/-- State set up by `DiskUsage.__init__` before `_walk_filesystem` runs. -/
def initState : ScanState :=
  { file_count := 0, files := [], dirs_holder := [] }

/-- Body of the inner loop of `_walk_filesystem` (lines 132-138) for a single
directory entry `(root, name, stat outcome)`: build the file record,
increment `file_count`, update the top-file list and the directory totals.
The `_show_activity` call only writes to stdout and is omitted. -/
def processOneFile (s : ScanState) (e : String × String × Option StatResult) : ScanState :=
  let file_data := get_file_data (joinPath e.1 e.2.1) e.2.2
  { file_count := s.file_count + 1
    files := process_files s.files file_data
    dirs_holder := add_up_dir s.dirs_holder e.1 file_data }

/-- The inner `for name in files` loop of `_walk_filesystem` for one visited
directory. -/
def process_dir (root : String) (files : List FileEntry) (s : ScanState) : ScanState :=
  files.foldl (fun st e => processOneFile st (root, e.name, e.stat)) s

theorem sizeOf_subdirs_lt (d : FsDir) : sizeOf d.subdirs < sizeOf d := by
  cases d <;> simp [FsDir.subdirs]

theorem filter_dirs_subset (root : String) (l : List FsDir) :
    ∀ x ∈ filter_dirs root l, x ∈ l := by
  intro x hx
  by_cases h : root = "/"
  · simp only [filter_dirs, if_pos h] at hx
    exact List.mem_of_mem_filter (List.mem_of_mem_filter hx)
  · simp only [filter_dirs, if_neg h] at hx
    exact List.mem_of_mem_filter hx

/-- Embedding of `DiskUsage._walk_filesystem` (lines 125-140) restricted to
the walking part: `os.walk(target)` visits the current directory (processing
its files), prunes the subdirectory list in place via `_filter_dirs`, and
recurses into the remaining subdirectories in order (`attach` only carries
the membership proof used for termination). The trailing `_remove_activity`
only writes to stdout; `_sort_dirs` is modelled separately as `sort_dirs`. -/
def walk_filesystem (root : String) (d : FsDir) (s : ScanState) : ScanState :=
  (filter_dirs root d.subdirs).attach.foldl
    (fun st x => walk_filesystem (joinPath root x.1.name) x.1 st)
    (process_dir root d.files s)
termination_by sizeOf d
decreasing_by
  have h2 : x.1 ∈ d.subdirs := filter_dirs_subset root d.subdirs x.1 x.2
  calc sizeOf x.1 < sizeOf d.subdirs := List.sizeOf_lt_of_mem h2
  _ < sizeOf d := sizeOf_subdirs_lt d

/-- Recursion of `os.walk` into an (already pruned) subdirectory list. -/
def walkSubs (root : String) (l : List FsDir) (s : ScanState) : ScanState :=
  l.foldl (fun st sub => walk_filesystem (joinPath root sub.name) sub st) s

/-- One entry of the final `self.dirs` list built by `_sort_dirs`. -/
structure DirEntry where
  name : String
  size : Nat
deriving DecidableEq, Repr

/-- Comparison used by `_sort_dirs`: descending by accumulated size (the key
`operator.itemgetter(1)` with `reverse=True`). -/
def valGe (a b : String × Nat) : Prop := b.2 ≤ a.2

instance : DecidableRel valGe := fun a b => inferInstanceAs (Decidable (b.2 ≤ a.2))

instance : IsTotal (String × Nat) valGe := ⟨fun a b => Nat.le_total b.2 a.2⟩

instance : IsTrans (String × Nat) valGe := ⟨fun _ _ _ hab hbc => Nat.le_trans hbc hab⟩

/-- Embedding of `DiskUsage._sort_dirs` (lines 115-123): sort all accumulated
directory totals descending by size, record `dir_count` as the length of the
full sorted list, then keep only the first 10 entries. Returns
`(dirs, dir_count)`. -/
def sort_dirs (holder : List (String × Nat)) : List DirEntry × Nat :=
  let dirs := (holder.insertionSort valGe).map fun kv => DirEntry.mk kv.1 kv.2
  (dirs.take 10, dirs.length)

/-- Directory tree with every mount-point subdirectory removed, at every
level. -/
def pruneMounts (d : FsDir) : FsDir :=
  FsDir.mk d.name d.isMount d.files
    (((d.subdirs.filter fun sub => !sub.isMount).attach).map fun x => pruneMounts x.1)
termination_by sizeOf d
decreasing_by
  have h2 : x.1 ∈ d.subdirs := List.mem_of_mem_filter x.2
  calc sizeOf x.1 < sizeOf d.subdirs := List.sizeOf_lt_of_mem h2
  _ < sizeOf d := sizeOf_subdirs_lt d

/-- Removal of mount points from a subdirectory list, recursing into the
kept subtrees. -/
def pruneList (l : List FsDir) : List FsDir :=
  (l.filter fun sub => !sub.isMount).map pruneMounts

/-- Proposition that no subdirectory anywhere below `d` is a mount point. -/
def noMounts (d : FsDir) : Prop :=
  ∀ sub ∈ d.subdirs, sub.isMount = false ∧ noMounts sub
termination_by sizeOf d
decreasing_by
  calc sizeOf sub < sizeOf d.subdirs := List.sizeOf_lt_of_mem (by assumption)
  _ < sizeOf d := sizeOf_subdirs_lt d

/-- Directory tree with the excluded root-level pseudo-filesystem
subdirectories removed from the top level. -/
def removeExcludedRoot (d : FsDir) : FsDir :=
  FsDir.mk d.name d.isMount d.files
    (d.subdirs.filter fun sub => !(exclude_root_dirs.contains sub.name))

/-- Number of directories the walk visits (one per `os.walk` yield): the
current directory plus, recursively, every subdirectory surviving
`_filter_dirs`. -/
def countVisitedDirs (root : String) (d : FsDir) : Nat :=
  1 + ((filter_dirs root d.subdirs).attach.map
        (fun x => countVisitedDirs (joinPath root x.1.name) x.1)).sum
termination_by sizeOf d
decreasing_by
  have h2 : x.1 ∈ d.subdirs := filter_dirs_subset root d.subdirs x.1 x.2
  calc sizeOf x.1 < sizeOf d.subdirs := List.sizeOf_lt_of_mem h2
  _ < sizeOf d := sizeOf_subdirs_lt d

/-- Stable position at which the Python sort places a freshly appended record
`r` into an already sorted list: after every existing entry of size at least
`r.size` (so equal sizes retain insertion order) and before every smaller
entry. -/
def stableInsert (r : FileData) (l : List FileData) : List FileData :=
  l.takeWhile (fun a => decide (r.size ≤ a.size)) ++
    r :: l.dropWhile (fun a => decide (r.size ≤ a.size))

/-- Sizes of the records in a stream are pairwise distinct. -/
def DistinctSizes (l : List FileData) : Prop :=
  l.Pairwise (fun a b => a.size ≠ b.size)

/-- Characterisation of a reachable top-file list: `F` consists of the
largest `min p.length 20` records of the already processed stream `p`,
sorted descending, with every record not retained strictly smaller than
every retained one. -/
def TopK (p F : List FileData) : Prop :=
  List.Sorted sizeGe F ∧ F.length = min p.length 20 ∧
    ∃ rest, p.Perm (F ++ rest) ∧ ∀ x ∈ F, ∀ y ∈ rest, y.size < x.size

theorem orderedInsert_head (x : FileData) (l : List FileData)
    (h : ∀ y, l.head? = some y → sizeGe x y) :
    List.orderedInsert sizeGe x l = x :: l := by
  cases l with
  | nil => rfl
  | cons y ys => exact List.orderedInsert_of_le sizeGe ys (h y rfl)

theorem sort_append_single (l : List FileData) (r : FileData)
    (hs : List.Sorted sizeGe l) :
    sort_files_list (l ++ [r]) = stableInsert r l := by
  induction l with
  | nil => simp [sort_files_list, stableInsert]
  | cons x t ih =>
    have hxt : ∀ y ∈ t, sizeGe x y := List.rel_of_sorted_cons hs
    have hstep : sort_files_list ((x :: t) ++ [r])
        = List.orderedInsert sizeGe x (stableInsert r t) := by
      rw [← ih hs.of_cons]
      simp [sort_files_list, List.insertionSort]
    rw [hstep]
    by_cases h : r.size ≤ x.size
    · have hpx : decide (r.size ≤ x.size) = true := by simpa using h
      have hRHS : stableInsert r (x :: t) = x :: stableInsert r t := by
        simp [stableInsert, List.takeWhile_cons, List.dropWhile_cons, hpx]
      rw [hRHS]
      apply orderedInsert_head
      intro y hy
      cases E : t.takeWhile (fun a => decide (r.size ≤ a.size)) with
      | nil =>
        have h1 : stableInsert r t
            = r :: t.dropWhile (fun a => decide (r.size ≤ a.size)) := by
          simp [stableInsert, E]
        rw [h1] at hy
        simp only [List.head?_cons, Option.some.injEq] at hy
        subst hy
        exact h
      | cons z zs =>
        have hz : z ∈ t := (List.takeWhile_sublist _).subset (by
          rw [E]; exact List.mem_cons_self z zs)
        have h1 : stableInsert r t
            = z :: (zs ++ r :: t.dropWhile (fun a => decide (r.size ≤ a.size))) := by
          simp [stableInsert, E]
        rw [h1] at hy
        simp only [List.head?_cons, Option.some.injEq] at hy
        subst hy
        exact hxt z hz
    · have hpx : decide (r.size ≤ x.size) = false := by simpa using h
      have hlt : ∀ y ∈ t, y.size < r.size := by
        intro y hy
        have h2 : y.size ≤ x.size := hxt y hy
        omega
      have htake : t.takeWhile (fun a => decide (r.size ≤ a.size)) = [] := by
        cases t with
        | nil => rfl
        | cons y ys =>
          have hy : decide (r.size ≤ y.size) = false := by
            simpa using Nat.not_le.mpr (hlt y (List.mem_cons_self y ys))
          simp [List.takeWhile_cons, hy]
      have hdrop : t.dropWhile (fun a => decide (r.size ≤ a.size)) = t := by
        cases t with
        | nil => rfl
        | cons y ys =>
          have hy : decide (r.size ≤ y.size) = false := by
            simpa using Nat.not_le.mpr (hlt y (List.mem_cons_self y ys))
          simp [List.dropWhile_cons, hy]
      have h1 : stableInsert r t = r :: t := by
        simp [stableInsert, htake, hdrop]
      have h2 : stableInsert r (x :: t) = r :: x :: t := by
        simp [stableInsert, List.takeWhile_cons, List.dropWhile_cons, hpx]
      rw [h1, h2]
      simp only [List.orderedInsert]
      rw [if_neg (show ¬ sizeGe x r from h)]
      congr 1
      cases t with
      | nil => rfl
      | cons y ys =>
        exact List.orderedInsert_of_le sizeGe ys (hxt y (List.mem_cons_self y ys))

theorem stableInsert_length (l : List FileData) (r : FileData)
    (hs : List.Sorted sizeGe l) :
    (stableInsert r l).length = l.length + 1 := by
  rw [← sort_append_single l r hs]
  simp [sort_files_list]

theorem stableInsert_sorted (l : List FileData) (r : FileData)
    (hs : List.Sorted sizeGe l) :
    List.Sorted sizeGe (stableInsert r l) := by
  rw [← sort_append_single l r hs]
  exact List.sorted_insertionSort sizeGe _

theorem stableInsert_perm (l : List FileData) (r : FileData)
    (hs : List.Sorted sizeGe l) :
    (stableInsert r l).Perm (l ++ [r]) := by
  rw [← sort_append_single l r hs]
  exact List.perm_insertionSort sizeGe _

theorem process_files_eq (files : List FileData) (r : FileData)
    (hs : List.Sorted sizeGe files) :
    process_files files r =
      if files.length < 20 then stableInsert r files
      else (stableInsert r files).dropLast := by
  have h1 : sort_files_list (files ++ [r]) = stableInsert r files :=
    sort_append_single files r hs
  have h2 : (stableInsert r files).length = files.length + 1 :=
    stableInsert_length files r hs
  simp only [process_files, h1, h2]
  by_cases h : files.length < 20
  · rw [if_neg (by omega), if_pos h]
  · rw [if_pos (by omega), if_neg h]

theorem process_files_length (files : List FileData) (r : FileData)
    (hs : List.Sorted sizeGe files) (hlen : files.length ≤ 20) :
    (process_files files r).length ≤ 20 := by
  rw [process_files_eq files r hs]
  split_ifs with h
  · rw [stableInsert_length files r hs]; omega
  · rw [List.length_dropLast, stableInsert_length files r hs]; omega

theorem process_files_sorted (files : List FileData) (r : FileData)
    (hs : List.Sorted sizeGe files) :
    List.Sorted sizeGe (process_files files r) := by
  rw [process_files_eq files r hs]
  split_ifs with h
  · exact stableInsert_sorted files r hs
  · exact List.Pairwise.sublist (List.dropLast_sublist _) (stableInsert_sorted files r hs)

/-- C2: starting from any reachable top-file list (sorted descending, at
most 20 entries), a single `_process_files` insertion leaves at most 20
entries, keeps the list sorted descending by size, places the new record at
its stable sorted position (after existing entries of equal size, before
strictly smaller ones), and drops exactly the last (smallest) element of
the extended sorted list when its length would exceed 20. -/
theorem claim_C2_topfiles_insertion (files : List FileData) (r : FileData)
    (hs : List.Sorted sizeGe files) (hlen : files.length ≤ 20) :
    (process_files files r).length ≤ 20 ∧
    List.Sorted sizeGe (process_files files r) ∧
    process_files files r =
      (if files.length < 20 then stableInsert r files
       else (stableInsert r files).dropLast) :=
  ⟨process_files_length files r hs hlen, process_files_sorted files r hs,
    process_files_eq files r hs⟩

/-- Witness for C2 at a concrete state and record. -/
theorem claim_C2_topfiles_insertion_witness :
    (process_files [⟨some "a", some 10, 5⟩, ⟨some "b", some 20, 3⟩]
        ⟨some "c", some 30, 4⟩).length ≤ 20 ∧
    List.Sorted sizeGe (process_files [⟨some "a", some 10, 5⟩, ⟨some "b", some 20, 3⟩]
        ⟨some "c", some 30, 4⟩) ∧
    process_files [⟨some "a", some 10, 5⟩, ⟨some "b", some 20, 3⟩] ⟨some "c", some 30, 4⟩ =
      (if ([⟨some "a", some 10, 5⟩, ⟨some "b", some 20, 3⟩] : List FileData).length < 20
       then stableInsert ⟨some "c", some 30, 4⟩ [⟨some "a", some 10, 5⟩, ⟨some "b", some 20, 3⟩]
       else (stableInsert ⟨some "c", some 30, 4⟩
          [⟨some "a", some 10, 5⟩, ⟨some "b", some 20, 3⟩]).dropLast) :=
  claim_C2_topfiles_insertion _ _ (by decide) (by decide)

theorem add_up_dir_zero (holder : List (String × Nat)) (root : String)
    (fd : FileData) (hfd : fd.size = 0) (p : String) :
    lookupTotal (add_up_dir holder root fd) p = lookupTotal holder p := by
  induction holder with
  | nil =>
    simp only [add_up_dir, lookupTotal, hfd]
    split <;> rfl
  | cons kv rest ih =>
    rcases kv with ⟨k, v⟩
    by_cases hk : k = root
    · simp [add_up_dir, hk, lookupTotal, hfd]
    · simp only [add_up_dir, if_neg hk, lookupTotal]
      split <;> simp [ih]

theorem process_files_sentinel (files : List FileData)
    (hs : List.Sorted sizeGe files) :
    process_files files ⟨none, none, 0⟩
      = if files.length < 20 then files ++ [⟨none, none, 0⟩] else files := by
  have he := process_files_eq files ⟨none, none, 0⟩ hs
  have h1 : files.takeWhile
      (fun a => decide ((⟨none, none, 0⟩ : FileData).size ≤ a.size)) = files :=
    List.takeWhile_eq_self_iff.mpr (by intro x hx; simp)
  have h2 : files.dropWhile
      (fun a => decide ((⟨none, none, 0⟩ : FileData).size ≤ a.size)) = [] :=
    List.dropWhile_eq_nil_iff.mpr (by intro x hx; simp)
  have hsi : stableInsert ⟨none, none, 0⟩ files = files ++ [⟨none, none, 0⟩] := by
    unfold stableInsert
    rw [h1, h2]
  rw [he, hsi]
  split_ifs with h
  · rfl
  · exact List.dropLast_concat

/-- C4: processing a directory entry whose stat fails produces the
degenerate record with size 0 and no path or modified time, still
increments `file_count` by exactly 1 (as every processed entry does),
leaves every accumulated directory total unchanged (the sentinel
contributes 0), and removes no existing record from the top-file list (the
sentinel is appended at the bottom when there is room and is itself the
element dropped otherwise). The embedding is total, so no error reaches
the caller. -/
theorem claim_C4_stat_failure (s : ScanState) (root name : String)
    (hs : List.Sorted sizeGe s.files) :
    get_file_data (joinPath root name) none = ⟨none, none, 0⟩ ∧
    (processOneFile s (root, name, none)).file_count = s.file_count + 1 ∧
    (∀ p, lookupTotal (processOneFile s (root, name, none)).dirs_holder p
        = lookupTotal s.dirs_holder p) ∧
    (processOneFile s (root, name, none)).files
      = (if s.files.length < 20 then s.files ++ [⟨none, none, 0⟩] else s.files) ∧
    ∀ x ∈ s.files, x ∈ (processOneFile s (root, name, none)).files := by
  have hfiles : (processOneFile s (root, name, none)).files
      = (if s.files.length < 20 then s.files ++ [⟨none, none, 0⟩] else s.files) := by
    simp only [processOneFile, get_file_data]
    exact process_files_sentinel s.files hs
  refine ⟨rfl, rfl, ?_, hfiles, ?_⟩
  · intro p
    simp only [processOneFile, get_file_data]
    exact add_up_dir_zero s.dirs_holder root _ rfl p
  · intro x hx
    rw [hfiles]
    split_ifs with h
    · exact List.mem_append_left _ hx
    · exact hx

/-- Witness for C4 at a concrete state. -/
theorem claim_C4_stat_failure_witness :
    get_file_data (joinPath "/data" "broken") none = ⟨none, none, 0⟩ ∧
    (processOneFile ⟨3, [⟨some "/data/a", some 7, 9⟩], [("/data", 9)]⟩
        ("/data", "broken", none)).file_count = 3 + 1 ∧
    (∀ p, lookupTotal (processOneFile ⟨3, [⟨some "/data/a", some 7, 9⟩], [("/data", 9)]⟩
        ("/data", "broken", none)).dirs_holder p
        = lookupTotal [("/data", 9)] p) ∧
    (processOneFile ⟨3, [⟨some "/data/a", some 7, 9⟩], [("/data", 9)]⟩
        ("/data", "broken", none)).files
      = (if ([⟨some "/data/a", some 7, 9⟩] : List FileData).length < 20
         then [⟨some "/data/a", some 7, 9⟩] ++ [⟨none, none, 0⟩]
         else [⟨some "/data/a", some 7, 9⟩]) ∧
    ∀ x ∈ ([⟨some "/data/a", some 7, 9⟩] : List FileData),
      x ∈ (processOneFile ⟨3, [⟨some "/data/a", some 7, 9⟩], [("/data", 9)]⟩
        ("/data", "broken", none)).files :=
  claim_C4_stat_failure ⟨3, [⟨some "/data/a", some 7, 9⟩], [("/data", 9)]⟩
    "/data" "broken" (by decide)

/-- C1 counterexample: at a statvfs snapshot with `f_blocks = 100`,
`f_bfree = 10`, `f_bavail = 5`, `f_frsize = 1024`, the claimed pair of
formulas fails: the code computes `used` from `f_bfree`, not from the
non-privileged-available count `f_bavail`. -/
theorem claim_C1_partition_counterexample :
    ¬ ((get_partition_usage ⟨1024, 100, 10, 5, 50, 20⟩).used = (100 - 5) * 1024 ∧
       (get_partition_usage ⟨1024, 100, 10, 5, 50, 20⟩).free = 5 * 1024) := by
  decide

/-- C1 amended: `usedBytes = totalBlocks * blockSize - totalFreeBlocks *
blockSize` where the free count used for `used` is `f_bfree` (free blocks
including the privileged reserve), while the reported `freeBytes` uses the
non-privileged-available count `f_bavail`. -/
theorem claim_C1_partition_amended (st : StatVfs) (h : st.f_bfree ≤ st.f_blocks) :
    (get_partition_usage st).used
        = st.f_blocks * st.f_frsize - st.f_bfree * st.f_frsize ∧
    (get_partition_usage st).free = st.f_bavail * st.f_frsize := by
  constructor
  · simp [get_partition_usage, Nat.sub_mul]
  · rfl

/-- Witness for the amended C1 at a concrete snapshot. -/
theorem claim_C1_partition_amended_witness :
    (get_partition_usage ⟨1024, 100, 10, 5, 50, 20⟩).used
        = 100 * 1024 - 10 * 1024 ∧
    (get_partition_usage ⟨1024, 100, 10, 5, 50, 20⟩).free = 5 * 1024 :=
  claim_C1_partition_amended ⟨1024, 100, 10, 5, 50, 20⟩ (by decide)

/-- C10: for a nonzero total the percentage computation returns
`round(free / total * 100, 2)` (floats embedded as exact rationals, Python
rounding is ties-to-even); for a zero total the division raises, and this
error branch is reachable through `format_partition_output` from a statvfs
snapshot reporting zero inodes. -/
theorem claim_C10_percent_division :
    (∀ free total : Nat, total ≠ 0 →
        calculate_percent free total
          = some (pyRound2 ((free : ℚ) / (total : ℚ) * 100))) ∧
    (∀ free : Nat, calculate_percent free 0 = none) ∧
    format_partition_output (get_partition_usage ⟨4096, 100, 40, 30, 0, 0⟩) = none := by
  refine ⟨?_, ?_, ?_⟩
  · intro free total h
    simp [calculate_percent, h]
  · intro free
    simp [calculate_percent]
  · decide

/-- Witness for C10 at concrete arguments. -/
theorem claim_C10_percent_division_witness :
    calculate_percent 1 3 = some (pyRound2 ((1 : ℚ) / (3 : ℚ) * 100)) ∧
    calculate_percent 5 0 = none :=
  ⟨claim_C10_percent_division.1 1 3 (by decide), claim_C10_percent_division.2.1 5⟩

/-- C6: after finalization the directory list has at most 10 entries, is
sorted descending by accumulated size, and `dir_count` is at least the
length of the kept list. -/
theorem claim_C6_topdirs_invariant (holder : List (String × Nat)) :
    (sort_dirs holder).1.length ≤ 10 ∧
    List.Sorted (fun a b : DirEntry => b.size ≤ a.size) (sort_dirs holder).1 ∧
    (sort_dirs holder).1.length ≤ (sort_dirs holder).2 := by
  have hsorted : List.Sorted (fun a b : DirEntry => b.size ≤ a.size)
      ((holder.insertionSort valGe).map fun kv => DirEntry.mk kv.1 kv.2) := by
    rw [List.Sorted, List.pairwise_map]
    exact List.sorted_insertionSort valGe holder
  refine ⟨?_, ?_, ?_⟩
  · simp [sort_dirs, List.length_take]
  · exact List.Pairwise.sublist (List.take_sublist _ _) hsorted
  · simp [sort_dirs, List.length_take]

theorem sumTotals_add_up_dir (holder : List (String × Nat)) (root : String)
    (fd : FileData) :
    sumTotals (add_up_dir holder root fd) = sumTotals holder + fd.size := by
  induction holder with
  | nil => simp [add_up_dir, sumTotals]
  | cons kv rest ih =>
    rcases kv with ⟨k, v⟩
    by_cases hk : k = root
    · simp [add_up_dir, hk, sumTotals]
      omega
    · simp [add_up_dir, hk, sumTotals] at ih ⊢
      omega

theorem fold_dirs_holder (stream : List (String × String × Option StatResult))
    (s : ScanState) :
    (stream.foldl processOneFile s).dirs_holder
      = stream.foldl
          (fun h e => add_up_dir h e.1 (get_file_data (joinPath e.1 e.2.1) e.2.2))
          s.dirs_holder := by
  induction stream generalizing s with
  | nil => rfl
  | cons e rest ih =>
    simp only [List.foldl_cons]
    rw [ih (processOneFile s e)]
    rfl

/-- C5: conservation law for the per-directory accumulation. For every
stream of processed entries, the sum of all accumulated totals in
`_dirs_holder` at the end of traversal (before `_sort_dirs` truncates to
10) equals the sum of the sizes of exactly the successfully statted entries
of the stream: stat failures contribute 0 and nothing is lost or counted
twice. -/
theorem claim_C5_conservation (stream : List (String × String × Option StatResult)) :
    sumTotals ((stream.foldl processOneFile initState).dirs_holder)
      = ((stream.filterMap fun e => e.2.2).map fun st => st.st_size).sum := by
  suffices h : ∀ h0 : List (String × Nat),
      sumTotals (stream.foldl
          (fun h e => add_up_dir h e.1 (get_file_data (joinPath e.1 e.2.1) e.2.2)) h0)
        = sumTotals h0 + ((stream.filterMap fun e => e.2.2).map fun st => st.st_size).sum by
    rw [fold_dirs_holder]
    simpa [initState, sumTotals] using h []
  intro h0
  induction stream generalizing h0 with
  | nil => simp [sumTotals]
  | cons e rest ih =>
    rcases e with ⟨root, name, stat⟩
    simp only [List.foldl_cons]
    rw [ih]
    rw [sumTotals_add_up_dir]
    cases stat with
    | none => simp [List.filterMap_cons, get_file_data]
    | some st =>
      simp [List.filterMap_cons, get_file_data]
      omega


theorem topk_nil : TopK [] [] :=
  ⟨List.sorted_nil, by simp, [], by simp, by simp⟩

theorem sizes_ne_symm : ∀ {x y : FileData}, x.size ≠ y.size → y.size ≠ x.size :=
  fun h => h.symm

theorem topk_step (p F : List FileData) (r : FileData)
    (hd : DistinctSizes (p ++ [r])) (h : TopK p F) :
    TopK (p ++ [r]) (process_files F r) := by
  obtain ⟨hFs, hFlen, rest, hperm, hsmall⟩ := h
  have he := process_files_eq F r hFs
  have hilen : (stableInsert r F).length = F.length + 1 := stableInsert_length F r hFs
  have hisort := stableInsert_sorted F r hFs
  have hiperm := stableInsert_perm F r hFs
  have hperm2 : (p ++ [r]).Perm ((F ++ [r]) ++ rest) := by
    have h1 : (p ++ [r]).Perm ((F ++ rest) ++ [r]) := hperm.append_right [r]
    have h2 : ((F ++ rest) ++ [r]).Perm ((F ++ [r]) ++ rest) := by
      rw [List.append_assoc, List.append_assoc]
      exact List.Perm.append_left F List.perm_append_comm
    exact h1.trans h2
  have hdistFr : DistinctSizes (F ++ [r]) := by
    have h1 : DistinctSizes ((F ++ [r]) ++ rest) :=
      (hperm2.pairwise_iff sizes_ne_symm).mp hd
    exact List.Pairwise.sublist (List.sublist_append_left _ _) h1
  have hdistIns : DistinctSizes (stableInsert r F) :=
    (hiperm.pairwise_iff sizes_ne_symm).mpr hdistFr
  rw [he]
  by_cases hc : F.length < 20
  · rw [if_pos hc]
    have hp0 : p.length = F.length := by omega
    have hrestlen : rest.length = 0 := by
      have hl := hperm.length_eq
      rw [List.length_append] at hl
      omega
    have hrest : rest = [] := List.eq_nil_of_length_eq_zero hrestlen
    refine ⟨hisort, ?_, rest, ?_, ?_⟩
    · rw [hilen, List.length_append, List.length_singleton]
      omega
    · exact hperm2.trans (hiperm.symm.append_right rest)
    · intro x hx y hy
      rw [hrest] at hy
      exact absurd hy (List.not_mem_nil y)
  · rw [if_neg hc]
    have hF20 : F.length = 20 := by omega
    have hp20 : 20 ≤ p.length := by omega
    have hne : stableInsert r F ≠ [] := by
      intro hnil
      rw [hnil] at hilen
      simp at hilen
    have hsplit : (stableInsert r F).dropLast
        ++ [(stableInsert r F).getLast hne] = stableInsert r F :=
      List.dropLast_concat_getLast hne
    have hsortsplit : List.Pairwise sizeGe ((stableInsert r F).dropLast
        ++ [(stableInsert r F).getLast hne]) := by
      rw [hsplit]
      exact hisort
    have hdistsplit : List.Pairwise (fun a b : FileData => a.size ≠ b.size)
        ((stableInsert r F).dropLast ++ [(stableInsert r F).getLast hne]) := by
      rw [hsplit]
      exact hdistIns
    rw [List.pairwise_append] at hsortsplit hdistsplit
    have hmin : ∀ x ∈ (stableInsert r F).dropLast,
        ((stableInsert r F).getLast hne).size ≤ x.size := by
      intro x hx
      exact hsortsplit.2.2 x hx _ (List.mem_singleton.mpr rfl)
    have hneq : ∀ x ∈ (stableInsert r F).dropLast,
        x.size ≠ ((stableInsert r F).getLast hne).size := by
      intro x hx
      exact hdistsplit.2.2 x hx _ (List.mem_singleton.mpr rfl)
    have hstrict : ∀ x ∈ (stableInsert r F).dropLast,
        ((stableInsert r F).getLast hne).size < x.size := by
      intro x hx
      exact lt_of_le_of_ne (hmin x hx) (Ne.symm (hneq x hx))
    have hdmem : (stableInsert r F).getLast hne ∈ stableInsert r F :=
      List.getLast_mem hne
    have hdFr : (stableInsert r F).getLast hne ∈ F ++ [r] :=
      (hiperm.mem_iff).mp hdmem
    refine ⟨List.Pairwise.sublist (List.dropLast_sublist _) hisort, ?_,
      (stableInsert r F).getLast hne :: rest, ?_, ?_⟩
    · rw [List.length_dropLast, hilen, hF20, List.length_append, List.length_singleton]
      omega
    · have h3 : (p ++ [r]).Perm (stableInsert r F ++ rest) :=
        hperm2.trans ((hiperm.symm).append_right rest)
      have he2 : stableInsert r F ++ rest
          = (stableInsert r F).dropLast
              ++ ((stableInsert r F).getLast hne :: rest) := by
        conv_lhs => rw [← hsplit]
        rw [List.append_assoc, List.singleton_append]
      rw [← he2]
      exact h3
    · intro x hx y hy
      rcases List.mem_cons.mp hy with hy1 | hyr
      · rw [hy1]
        exact hstrict x hx
      · have hxins : x ∈ stableInsert r F := (List.dropLast_sublist _).subset hx
        rcases List.mem_append.mp ((hiperm.mem_iff).mp hxins) with hxF | hxr
        · exact hsmall x hxF y hyr
        · have hxr' : x = r := List.mem_singleton.mp hxr
          subst hxr'
          rcases List.mem_append.mp hdFr with hdF | hdr
          · exact lt_trans (hsmall _ hdF y hyr) (hstrict x hx)
          · have hdr' : (stableInsert x F).getLast hne = x := List.mem_singleton.mp hdr
            have h1 := hneq x hx
            rw [hdr'] at h1
            exact absurd rfl h1

theorem topk_fold : ∀ (s p F : List FileData), DistinctSizes (p ++ s) → TopK p F →
    TopK (p ++ s) (s.foldl process_files F)
  | [], p, F, hd, h => by simpa using h
  | r :: srest, p, F, hd, h => by
    have hd1 : DistinctSizes ((p ++ [r]) ++ srest) := by
      rwa [List.append_assoc, List.singleton_append]
    have hdr : DistinctSizes (p ++ [r]) :=
      List.Pairwise.sublist (List.sublist_append_left _ _) hd1
    have hstep := topk_step p F r hdr h
    have hrec := topk_fold srest (p ++ [r]) (process_files F r) hd1 hstep
    rw [List.append_assoc, List.singleton_append] at hrec
    simpa using hrec

/-- C3: for a stream of 25 records with pairwise distinct sizes, in any
order, the finalized top-file list consists of exactly 20 records of the
stream, every record left out is strictly smaller than every record kept
(so the kept records are exactly the 20 largest), and each of the 5 left
out (the smallest) is absent from the list. -/
theorem claim_C3_top20_of_25 (s : List FileData) (hlen : s.length = 25)
    (hd : DistinctSizes s) :
    ∃ rest : List FileData,
      s.Perm (s.foldl process_files [] ++ rest) ∧
      (s.foldl process_files []).length = 20 ∧ rest.length = 5 ∧
      (∀ x ∈ s.foldl process_files [], ∀ y ∈ rest, y.size < x.size) ∧
      (∀ y ∈ rest, y ∉ s.foldl process_files []) := by
  have h := topk_fold s [] [] (by simpa using hd) topk_nil
  rw [List.nil_append] at h
  obtain ⟨hsort, hlenF, rest, hperm, hsmall⟩ := h
  refine ⟨rest, hperm, ?_, ?_, hsmall, ?_⟩
  · rw [hlenF, hlen]
    decide
  · have hl := hperm.length_eq
    rw [List.length_append] at hl
    omega
  · intro y hy hyF
    exact absurd (hsmall y hyF y hy) (lt_irrefl _)

/-- Stream used to witness C3: 25 records with the distinct sizes 1..25. -/
def c3stream : List FileData :=
  (List.range 25).map fun k => ⟨none, none, k + 1⟩

/-- Witness for C3 at the concrete 25-record stream. -/
theorem claim_C3_top20_of_25_witness :
    ∃ rest : List FileData,
      c3stream.Perm (c3stream.foldl process_files [] ++ rest) ∧
      (c3stream.foldl process_files []).length = 20 ∧ rest.length = 5 ∧
      (∀ x ∈ c3stream.foldl process_files [], ∀ y ∈ rest, y.size < x.size) ∧
      (∀ y ∈ rest, y ∉ c3stream.foldl process_files []) :=
  claim_C3_top20_of_25 c3stream (by decide) (by unfold DistinctSizes; decide)

theorem walk_filesystem_eq (root : String) (d : FsDir) (s : ScanState) :
    walk_filesystem root d s
      = walkSubs root (filter_dirs root d.subdirs) (process_dir root d.files s) := by
  rw [walk_filesystem, walkSubs]
  exact List.foldl_attach (filter_dirs root d.subdirs)
    (fun st sub => walk_filesystem (joinPath root sub.name) sub st)
    (process_dir root d.files s)

theorem walkSubs_nil (root : String) (s : ScanState) : walkSubs root [] s = s := rfl

theorem walkSubs_cons (root : String) (sub : FsDir) (rest : List FsDir) (s : ScanState) :
    walkSubs root (sub :: rest) s
      = walkSubs root rest (walk_filesystem (joinPath root sub.name) sub s) := rfl

theorem pruneMounts_eq (d : FsDir) :
    pruneMounts d = FsDir.mk d.name d.isMount d.files (pruneList d.subdirs) := by
  rw [pruneMounts, pruneList, List.attach_map_coe]

theorem noMounts_eq (d : FsDir) :
    noMounts d = ∀ sub ∈ d.subdirs, sub.isMount = false ∧ noMounts sub := by
  rw [noMounts]

theorem countVisitedDirs_eq (root : String) (d : FsDir) :
    countVisitedDirs root d
      = 1 + ((filter_dirs root d.subdirs).map
          (fun sub => countVisitedDirs (joinPath root sub.name) sub)).sum := by
  rw [countVisitedDirs]
  exact congrArg (fun t : List Nat => 1 + t.sum)
    (List.attach_map_val (filter_dirs root d.subdirs)
      (fun sub => countVisitedDirs (joinPath root sub.name) sub))

theorem FsDir.ind (P : FsDir → Prop)
    (mk : ∀ (n : String) (m : Bool) (fs : List FileEntry) (subs : List FsDir),
        (∀ d ∈ subs, P d) → P (FsDir.mk n m fs subs)) : ∀ d, P d
  | .mk n m fs subs => mk n m fs subs (fun d hd => FsDir.ind P mk d)
termination_by d => sizeOf d
decreasing_by
  calc sizeOf d < sizeOf subs := List.sizeOf_lt_of_mem hd
  _ < sizeOf (FsDir.mk n m fs subs) := by simp +arith

theorem pruneMounts_name (d : FsDir) : (pruneMounts d).name = d.name := by
  rw [pruneMounts_eq]
  rfl

theorem pruneMounts_isMount (d : FsDir) : (pruneMounts d).isMount = d.isMount := by
  rw [pruneMounts_eq]
  rfl

theorem pruneMounts_subdirs (d : FsDir) : (pruneMounts d).subdirs = pruneList d.subdirs := by
  rw [pruneMounts_eq]
  rfl

theorem filter_map_prune (p : FsDir → Bool) (hp : ∀ d, p (pruneMounts d) = p d)
    (l : List FsDir) :
    (l.map pruneMounts).filter p = (l.filter p).map pruneMounts := by
  rw [List.filter_map]
  congr 1
  exact List.filter_congr (fun a _ => hp a)

theorem filter_idem (p : FsDir → Bool) (l : List FsDir) :
    (l.filter p).filter p = l.filter p := by
  rw [List.filter_filter]
  exact List.filter_congr (fun a _ => Bool.and_self (p a))

theorem filter_dirs_pruneList (root : String) (l : List FsDir) :
    filter_dirs root (pruneList l) = (filter_dirs root l).map pruneMounts := by
  have hpm : ∀ d : FsDir, (!(pruneMounts d).isMount) = (!d.isMount) := by
    intro d
    rw [pruneMounts_isMount]
  have hpq : ∀ d : FsDir, (!(exclude_root_dirs.contains (pruneMounts d).name))
      = (!(exclude_root_dirs.contains d.name)) := by
    intro d
    rw [pruneMounts_name]
  simp only [pruneList, filter_dirs]
  split_ifs with h
  · rw [filter_map_prune _ hpm, filter_idem, filter_map_prune _ hpq]
  · rw [filter_map_prune _ hpm, filter_idem]

theorem walkSubs_congr (root : String) (l : List FsDir)
    (ih : ∀ x ∈ l, ∀ (r : String) (s : ScanState),
        walk_filesystem r (pruneMounts x) s = walk_filesystem r x s) :
    ∀ s, walkSubs root (l.map pruneMounts) s = walkSubs root l s := by
  induction l with
  | nil => intro s; rfl
  | cons x rest ihl =>
    intro s
    rw [List.map_cons, walkSubs_cons, walkSubs_cons, pruneMounts_name,
      ih x (List.mem_cons_self x rest)]
    exact ihl (fun y hy r s => ih y (List.mem_cons_of_mem x hy) r s) _

theorem walk_prune (d : FsDir) : ∀ (root : String) (s : ScanState),
    walk_filesystem root (pruneMounts d) s = walk_filesystem root d s := by
  induction d using FsDir.ind with
  | mk n m fs subs ih =>
    intro root s
    rw [walk_filesystem_eq, walk_filesystem_eq]
    simp only [pruneMounts_eq, FsDir.subdirs, FsDir.files, FsDir.name, FsDir.isMount]
    rw [filter_dirs_pruneList]
    exact walkSubs_congr root (filter_dirs root subs)
      (fun x hx r s2 => ih x (filter_dirs_subset root subs x hx) r s2) _

theorem noMounts_pruneMounts (d : FsDir) : noMounts (pruneMounts d) := by
  induction d using FsDir.ind with
  | mk n m fs subs ih =>
    rw [noMounts_eq, pruneMounts_subdirs]
    simp only [FsDir.subdirs]
    intro sub hsub
    simp only [pruneList, List.mem_map] at hsub
    obtain ⟨x, hx, rfl⟩ := hsub
    have hxsub : x ∈ subs := List.mem_of_mem_filter hx
    have hxm : x.isMount = false := by
      have h1 := List.of_mem_filter hx
      simpa using h1
    constructor
    · rw [pruneMounts_isMount]
      exact hxm
    · exact ih x hxsub

/-- C7: the traversal never descends into a subdirectory that is a mount
point. Walking any tree produces exactly the same final state as walking
the tree with every mount-point subtree removed (`pruneMounts`, which
contains no mount anywhere), so files below a nested mount contribute
nothing to `file_count`, to the top-file list, or to any directory
total. -/
theorem claim_C7_mounts_excluded (root : String) (d : FsDir) (s : ScanState) :
    walk_filesystem root d s = walk_filesystem root (pruneMounts d) s ∧
    noMounts (pruneMounts d) :=
  ⟨(walk_prune d root s).symm, noMounts_pruneMounts d⟩

/-- C8: when the directory being walked is the filesystem root `"/"`, the
subdirectories named in the fixed exclusion list survive `_filter_dirs` in
no case, and walking a tree from target `"/"` gives exactly the same state
as walking it with those subdirectories removed, so nothing below them is
visited or counted. -/
theorem claim_C8_root_exclusion (d : FsDir) (s : ScanState) :
    (∀ sub ∈ filter_dirs "/" d.subdirs, sub.name ∉ exclude_root_dirs) ∧
    walk_filesystem "/" d s = walk_filesystem "/" (removeExcludedRoot d) s := by
  constructor
  · intro sub hsub
    simp only [filter_dirs, if_pos rfl] at hsub
    have h1 := List.of_mem_filter hsub
    simpa using h1
  · rw [walk_filesystem_eq, walk_filesystem_eq]
    simp only [removeExcludedRoot, FsDir.subdirs, FsDir.files]
    congr 1
    simp only [filter_dirs, if_pos rfl]
    rw [List.filter_filter, List.filter_filter, List.filter_filter]
    exact List.filter_congr (fun a _ => by
      cases hq : exclude_root_dirs.contains a.name <;> cases hm : a.isMount <;> simp [hq, hm])

/-- Witness for C8 at a concrete tree with a kept subdirectory. -/
theorem claim_C8_root_exclusion_witness :
    ((FsDir.mk "home" false [] []).name ∉ exclude_root_dirs) ∧
    walk_filesystem "/" (FsDir.mk "/" false [] [FsDir.mk "home" false [] []]) initState
      = walk_filesystem "/"
          (removeExcludedRoot (FsDir.mk "/" false [] [FsDir.mk "home" false [] []]))
          initState :=
  ⟨(claim_C8_root_exclusion (FsDir.mk "/" false [] [FsDir.mk "home" false [] []])
        initState).1 (FsDir.mk "home" false [] []) (List.mem_cons_self _ _),
   (claim_C8_root_exclusion (FsDir.mk "/" false [] [FsDir.mk "home" false [] []])
        initState).2⟩

theorem sort_dirs_count (holder : List (String × Nat)) :
    (sort_dirs holder).2 = holder.length := by
  simp [sort_dirs]

/-- C9 counterexample: scanning a directory that contains no files visits
one directory, but `dir_count` comes out 0, because `_dirs_holder` only
ever receives an entry when a file directly inside a directory is
processed. -/
theorem claim_C9_dircount_counterexample :
    (sort_dirs ((walk_filesystem "/data" (FsDir.mk "data" false [] [])
        initState).dirs_holder)).2
      ≠ countVisitedDirs "/data" (FsDir.mk "data" false [] []) := by
  have h1 : walk_filesystem "/data" (FsDir.mk "data" false [] []) initState
      = initState := by
    rw [walk_filesystem_eq]
    simp [FsDir.subdirs, FsDir.files, filter_dirs, process_dir, walkSubs]
  have h2 : countVisitedDirs "/data" (FsDir.mk "data" false [] []) = 1 := by
    rw [countVisitedDirs_eq]
    simp [FsDir.subdirs, filter_dirs]
  rw [h1, h2, sort_dirs_count]
  simp [initState]

theorem holderKeys_mem_add_up_dir (holder : List (String × Nat)) (root : String)
    (fd : FileData) (p : String) :
    p ∈ holderKeys (add_up_dir holder root fd)
      ↔ p ∈ holderKeys holder ∨ p = root := by
  induction holder with
  | nil => simp [add_up_dir, holderKeys]
  | cons kv rest ih =>
    rcases kv with ⟨k, v⟩
    by_cases hk : k = root
    · subst hk
      simp only [add_up_dir, eq_self_iff_true, if_true, holderKeys, List.map_cons,
        List.mem_cons]
      tauto
    · simp only [add_up_dir, if_neg hk, holderKeys, List.map_cons, List.mem_cons]
      rw [show (List.map Prod.fst (add_up_dir rest root fd))
            = holderKeys (add_up_dir rest root fd) from rfl, ih]
      tauto

theorem holderKeys_nodup_add_up_dir (holder : List (String × Nat)) (root : String)
    (fd : FileData) (h : (holderKeys holder).Nodup) :
    (holderKeys (add_up_dir holder root fd)).Nodup := by
  induction holder with
  | nil => simp [add_up_dir, holderKeys]
  | cons kv rest ih =>
    rcases kv with ⟨k, v⟩
    simp only [holderKeys, List.map_cons, List.nodup_cons] at h
    obtain ⟨h1, h2⟩ := h
    by_cases hk : k = root
    · subst hk
      simp only [add_up_dir, eq_self_iff_true, if_true, holderKeys, List.map_cons,
        List.nodup_cons]
      exact ⟨h1, h2⟩
    · simp only [add_up_dir, if_neg hk, holderKeys, List.map_cons, List.nodup_cons]
      constructor
      · intro hmem
        rcases (holderKeys_mem_add_up_dir rest root fd k).mp hmem with hmem1 | hmem2
        · exact h1 hmem1
        · exact hk hmem2
      · exact ih h2

theorem fold_holder_keys_mem (stream : List (String × String × Option StatResult)) :
    ∀ (h0 : List (String × Nat)) (p : String),
      p ∈ holderKeys (stream.foldl
          (fun h e => add_up_dir h e.1 (get_file_data (joinPath e.1 e.2.1) e.2.2)) h0)
        ↔ p ∈ holderKeys h0 ∨ p ∈ stream.map (fun e => e.1) := by
  induction stream with
  | nil =>
    intro h0 p
    simp
  | cons e rest ih =>
    intro h0 p
    simp only [List.foldl_cons, List.map_cons, List.mem_cons]
    rw [ih, holderKeys_mem_add_up_dir]
    tauto

theorem fold_holder_keys_nodup (stream : List (String × String × Option StatResult)) :
    ∀ h0 : List (String × Nat), (holderKeys h0).Nodup →
      (holderKeys (stream.foldl
          (fun h e => add_up_dir h e.1 (get_file_data (joinPath e.1 e.2.1) e.2.2))
          h0)).Nodup := by
  induction stream with
  | nil =>
    intro h0 h
    exact h
  | cons e rest ih =>
    intro h0 h
    simp only [List.foldl_cons]
    exact ih _ (holderKeys_nodup_add_up_dir _ _ _ h)

/-- C9 amended: `dir_count` equals the number of distinct directory paths
for which at least one file entry was processed (recorded from the full
accumulation map before truncation to the top 10); a visited directory
with no directly contained files receives no `_dirs_holder` entry and is
not counted. -/
theorem claim_C9_dircount_amended (stream : List (String × String × Option StatResult)) :
    (sort_dirs ((stream.foldl processOneFile initState).dirs_holder)).2
      = ((stream.map fun e => e.1).toFinset).card := by
  rw [sort_dirs_count, fold_dirs_holder]
  have hnd : (holderKeys (stream.foldl
      (fun h e => add_up_dir h e.1 (get_file_data (joinPath e.1 e.2.1) e.2.2))
      initState.dirs_holder)).Nodup :=
    fold_holder_keys_nodup stream initState.dirs_holder (by simp [initState, holderKeys])
  have hfin : (holderKeys (stream.foldl
      (fun h e => add_up_dir h e.1 (get_file_data (joinPath e.1 e.2.1) e.2.2))
      initState.dirs_holder)).toFinset = (stream.map fun e => e.1).toFinset := by
    ext p
    simp only [List.mem_toFinset]
    rw [fold_holder_keys_mem]
    simp [initState, holderKeys]
  have hlen : (stream.foldl
      (fun h e => add_up_dir h e.1 (get_file_data (joinPath e.1 e.2.1) e.2.2))
      initState.dirs_holder).length
      = (holderKeys (stream.foldl
          (fun h e => add_up_dir h e.1 (get_file_data (joinPath e.1 e.2.1) e.2.2))
          initState.dirs_holder)).length := by
    simp [holderKeys]
  rw [hlen, ← List.toFinset_card_of_nodup hnd, hfin]
